/-
  Verification of the RayCraft path tracer core against its specification.

  Shallow embedding of the C++ sources (src/src/vec3.h, ray.h, interval.h,
  hittable.h, sphere.h, hittable_list.h, material.h, color.h) into Lean 4.
  C++ `double` arithmetic is idealised as real arithmetic; `std::sqrt` is
  `Real.sqrt`.  Division follows Lean's convention `x / 0 = 0`; theorems that
  would be sensitive to the C++ behaviour at a zero denominator carry explicit
  nonzero hypotheses.  Out-parameters written through references are modelled
  by returning `Option` values (a `hit` call either produces a fresh record or
  leaves the caller's record untouched).
-/

import Mathlib

noncomputable section

namespace RayCraft

open Classical

/-- 3-component vector from `vec3.h` (fields `e[0], e[1], e[2]`, read through
    accessors `x(), y(), z()`); doubles as point and colour. -/
@[ext]
structure vec3 where
  x : ℝ
  y : ℝ
  z : ℝ

/-- Alias from `vec3.h`: `using point3 = vec3`. -/
abbrev point3 := vec3

/-- Alias from `color.h`: `using color = vec3`. -/
abbrev color := vec3

namespace vec3

/-- The default constructor `vec3()` (all components zero). -/
def zero : vec3 := ⟨0, 0, 0⟩

/-- Unary `operator-`. -/
def neg (v : vec3) : vec3 := ⟨-v.x, -v.y, -v.z⟩

/-- Binary `operator+` (component-wise). -/
def add (u v : vec3) : vec3 := ⟨u.x + v.x, u.y + v.y, u.z + v.z⟩

/-- Binary `operator-` (component-wise). -/
def sub (u v : vec3) : vec3 := ⟨u.x - v.x, u.y - v.y, u.z - v.z⟩

/-- Component-wise `operator*` on two vectors. -/
def mul (u v : vec3) : vec3 := ⟨u.x * v.x, u.y * v.y, u.z * v.z⟩

/-- Scalar `operator*` (`t * v`). -/
def smul (t : ℝ) (v : vec3) : vec3 := ⟨t * v.x, t * v.y, t * v.z⟩

/-- Scalar `operator/`: the source computes `(1/t) * v`. -/
def divs (v : vec3) (t : ℝ) : vec3 := smul (1 / t) v

/-- `length_squared()`. -/
def length_squared (v : vec3) : ℝ := v.x * v.x + v.y * v.y + v.z * v.z

/-- `length()` = `std::sqrt(length_squared())`. -/
def length (v : vec3) : ℝ := Real.sqrt v.length_squared

end vec3

/-- Free function `dot` from `vec3.h`. -/
def dot (u v : vec3) : ℝ := u.x * v.x + u.y * v.y + u.z * v.z

/-- Free function `unit_vector` from `vec3.h`: guarded normalisation, the
    zero vector is returned unchanged when the length is zero. -/
def unit_vector (v : vec3) : vec3 :=
  if v.length = 0 then vec3.zero else vec3.divs v v.length

/-- Free function `reflect` from `vec3.h`: `v - 2*dot(v,n)*n`. -/
def reflect (v n : vec3) : vec3 := vec3.sub v (vec3.smul (2 * dot v n) n)

/-- Free function `refract` from `vec3.h` (Snell's law split into
    perpendicular and parallel components). -/
def refract (uv n : vec3) (etai_over_etat : ℝ) : vec3 :=
  let cos_theta := min (dot (vec3.neg uv) n) 1.0
  let r_out_perp := vec3.smul etai_over_etat (vec3.add uv (vec3.smul cos_theta n))
  let r_out_par := vec3.smul (-(Real.sqrt |1.0 - r_out_perp.length_squared|)) n
  vec3.add r_out_perp r_out_par

/-- `ray` from `ray.h`: origin plus direction. -/
structure ray where
  origin : vec3
  direction : vec3

/-- `ray::at(t) = origin + t*direction`. -/
def ray.at (r : ray) (t : ℝ) : point3 := vec3.add r.origin (vec3.smul t r.direction)

/-- `interval` from `interval.h`: a range of reals given by two bounds. -/
structure interval where
  min : ℝ
  max : ℝ

/-- `interval::contains`: `min <= x && x <= max`. -/
def interval.contains (i : interval) (x : ℝ) : Prop := i.min ≤ x ∧ x ≤ i.max

/-- `interval::surrounds`: `min < x && x < max`. -/
def interval.surrounds (i : interval) (x : ℝ) : Prop := i.min < x ∧ x < i.max

/-- `interval::clamp`. -/
def interval.clamp (i : interval) (x : ℝ) : ℝ :=
  if x < i.min then i.min else if x > i.max then i.max else x

/-- `interval::size`. -/
def interval.size (i : interval) : ℝ := i.max - i.min

/-- `hit_record` from `hittable.h` / `src/src/sphere.h`.  The
    `shared_ptr<material>` member `mat` is modelled as a material identifier. -/
structure hit_record where
  p : point3
  normal : vec3
  t : ℝ
  front_face : Prop
  mat : ℕ

/-- `hit_record::set_face_normal`: store whether the outward normal opposes
    the ray (`front_face`) and flip the stored normal accordingly. -/
def hit_record.set_face_normal (rec : hit_record) (r : ray) (outward_normal : vec3) :
    hit_record :=
  { rec with
    front_face := dot r.direction outward_normal < 0
    normal := if dot r.direction outward_normal < 0 then outward_normal
              else vec3.neg outward_normal }

/-- `sphere` from `sphere.h`: centre, radius and material reference
    (modelled as an identifier). -/
structure sphere where
  center : point3
  radius : ℝ
  mat : ℕ

/-- The constructor `sphere::sphere`: the stored radius is
    `std::fmax(0, radius)`. -/
def sphere.make (center : point3) (radius : ℝ) (mat : ℕ) : sphere :=
  ⟨center, max 0 radius, mat⟩

/-- The tail of `sphere::hit` once a root has been accepted: populate the
    record with `t`, the point `r.at(t)`, the outward normal
    `(p - center)/radius`, the oriented normal via `set_face_normal`, and the
    material. -/
def sphere.record (s : sphere) (r : ray) (root : ℝ) : hit_record :=
  let p := r.at root
  let outward_normal := vec3.divs (vec3.sub p s.center) s.radius
  hit_record.set_face_normal
    { p := p, normal := vec3.divs (vec3.sub p s.center) s.radius,
      t := root, front_face := False, mat := s.mat } r outward_normal

/-- `sphere::hit` from `src/src/sphere.h`: quadratic coefficients
    `a = |d|²`, `h = d·(C−O)`, `c = |C−O|² − radius²`; a negative
    discriminant reports no hit; otherwise the root `(h−√disc)/a` is tried
    first and the root `(h+√disc)/a` second, each accepted only when the open
    interval `surrounds` it. -/
def sphere.hit (s : sphere) (r : ray) (ray_t : interval) : Option hit_record :=
  let oc := vec3.sub s.center r.origin
  let a := r.direction.length_squared
  let h := dot r.direction oc
  let c := oc.length_squared - s.radius * s.radius
  let discriminant := h * h - a * c
  if discriminant < 0 then none
  else
    let sqrtd := Real.sqrt discriminant
    let root := (h - sqrtd) / a
    if ray_t.surrounds root then some (s.record r root)
    else
      let root2 := (h + sqrtd) / a
      if ray_t.surrounds root2 then some (s.record r root2)
      else none

/-- The quadratic coefficient `a` of `sphere::hit`. -/
def sphere.qa (_s : sphere) (r : ray) : ℝ := r.direction.length_squared

/-- The quadratic coefficient `h` of `sphere::hit`. -/
def sphere.qh (s : sphere) (r : ray) : ℝ := dot r.direction (vec3.sub s.center r.origin)

/-- The quadratic coefficient `c` of `sphere::hit`. -/
def sphere.qc (s : sphere) (r : ray) : ℝ :=
  (vec3.sub s.center r.origin).length_squared - s.radius * s.radius

/-- The discriminant `h² − a·c` of `sphere::hit`. -/
def sphere.disc (s : sphere) (r : ray) : ℝ := s.qh r * s.qh r - s.qa r * s.qc r

/-- The root `(h − √disc)/a` tried first by `sphere::hit`. -/
def sphere.root1 (s : sphere) (r : ray) : ℝ :=
  (s.qh r - Real.sqrt (s.disc r)) / s.qa r

/-- The root `(h + √disc)/a` tried second by `sphere::hit`. -/
def sphere.root2 (s : sphere) (r : ray) : ℝ :=
  (s.qh r + Real.sqrt (s.disc r)) / s.qa r

/-- `sphere.hit` rewritten through the named coefficients; pure unfolding. -/
theorem sphere.hit_eq_cases (s : sphere) (r : ray) (ray_t : interval) :
    s.hit r ray_t =
      if s.disc r < 0 then none
      else if ray_t.surrounds (s.root1 r) then some (s.record r (s.root1 r))
      else if ray_t.surrounds (s.root2 r) then some (s.record r (s.root2 r))
      else none := by
  simp only [sphere.hit, sphere.disc, sphere.qa, sphere.qh, sphere.qc,
    sphere.root1, sphere.root2]

/-- The loop body of `hittable_list::hit` from `hittable_list.h`: scan the
    members in order, querying each with the interval
    `interval(ray_t.min, closest_so_far)`; on a member hit, set the flag,
    shrink `closest_so_far` to the accepted `t`, and overwrite the caller's
    record.  `sphere` is the only `hittable` variant in the repository. -/
def hittable_list.hitGo (r : ray) (lo : ℝ) :
    List sphere → ℝ → Bool → hit_record → Bool × hit_record
  | [], _, hit_anything, rec => (hit_anything, rec)
  | object :: rest, closest_so_far, hit_anything, rec =>
      match object.hit r ⟨lo, closest_so_far⟩ with
      | some temp_rec => hittable_list.hitGo r lo rest temp_rec.t true temp_rec
      | none => hittable_list.hitGo r lo rest closest_so_far hit_anything rec

/-- `hittable_list::hit`: returns the C++ boolean result together with the
    caller's `rec` out-parameter after the scan (unchanged when no member
    was accepted). -/
def hittable_list.hit (objects : List sphere) (r : ray) (ray_t : interval)
    (rec : hit_record) : Bool × hit_record :=
  hittable_list.hitGo r ray_t.min objects ray_t.max false rec

/-- `metal` from `material.h`: albedo plus roughness. -/
structure metal where
  albedo : color
  fuzz : ℝ

/-- The constructor `metal::metal`: the stored fuzz is
    `fuzz < 1 ? fuzz : 1`. -/
def metal.make (albedo : color) (fuzz : ℝ) : metal :=
  ⟨albedo, if fuzz < 1 then fuzz else 1⟩

/-- `dielectric::reflectance`: Schlick's approximation
    `r0 + (1-r0)*(1-cosine)^5` with `r0 = ((1-n)/(1+n))²`. -/
def dielectric.reflectance (cosine refraction_index : ℝ) : ℝ :=
  let r0 := (1 - refraction_index) / (1 + refraction_index)
  let r0sq := r0 * r0
  r0sq + (1 - r0sq) * (1 - cosine) ^ (5 : ℕ)

/-- The branch condition of `dielectric::scatter`
    (`cannot_refract || reflectance(cos_theta, ri) > random_double()`),
    with the `random_double()` draw made explicit as `rand`: total internal
    reflection, or the reflectance draw selecting reflection. -/
def dielectric.reflects (refraction_index : ℝ) (r_in : ray) (rec : hit_record)
    (rand : ℝ) : Prop :=
  let ri := if rec.front_face then 1.0 / refraction_index else refraction_index
  let unit_direction := unit_vector r_in.direction
  let cos_theta := min (dot (vec3.neg unit_direction) rec.normal) 1.0
  let sin_theta := Real.sqrt (1 - cos_theta * cos_theta)
  ri * sin_theta > 1.0 ∨ dielectric.reflectance cos_theta ri > rand

/-- `dielectric::scatter` from `material.h`.  The call to the process-wide
    `random_double()` is made explicit as the argument `rand`; the function
    always scatters (the C++ method returns `true`), so only the attenuation
    and the scattered ray are returned.  The reflect-or-refract decision is
    the predicate `dielectric.reflects` above. -/
def dielectric.scatter (refraction_index : ℝ) (r_in : ray) (rec : hit_record)
    (rand : ℝ) : color × ray :=
  let attenuation : color := ⟨1.0, 1.0, 1.0⟩
  let ri := if rec.front_face then 1.0 / refraction_index else refraction_index
  let unit_direction := unit_vector r_in.direction
  let direction :=
    if dielectric.reflects refraction_index r_in rec rand
    then reflect unit_direction rec.normal
    else refract unit_direction rec.normal ri
  (attenuation, ⟨rec.p, direction⟩)

/-- `linear_to_gamma` from `color.h`: square root of a positive component,
    zero otherwise. -/
def linear_to_gamma (linear_component : ℝ) : ℝ :=
  if linear_component > 0 then Real.sqrt linear_component else 0

/-- C++ `int(x)` truncation toward zero on a real argument. -/
def cppIntOfReal (x : ℝ) : ℤ := if 0 ≤ x then ⌊x⌋ else -⌊-x⌋

/-- The `static const interval intensity(0.000, 0.999)` of `write_color`. -/
def intensity : interval := ⟨0.000, 0.999⟩

/-- `write_color` from `src/src/color.h`, reduced to the three integers it
    prints: each raw component is clamped by `intensity` and scaled by 256
    before truncation.  (`linear_to_gamma` is defined in the same header but
    is never applied here.) -/
def write_color (pixel_color : color) : ℤ × ℤ × ℤ :=
  let r := pixel_color.x
  let g := pixel_color.y
  let b := pixel_color.z
  (cppIntOfReal (256 * intensity.clamp r),
   cppIntOfReal (256 * intensity.clamp g),
   cppIntOfReal (256 * intensity.clamp b))

/-- The output encoder as the specification describes it (gamma before
    clamping and quantisation): `int(256*clamp(linear_to_gamma(c)))` per
    component.  Stated only to be compared with `write_color`. -/
def write_color_speced (pixel_color : color) : ℤ × ℤ × ℤ :=
  (cppIntOfReal (256 * intensity.clamp (linear_to_gamma pixel_color.x)),
   cppIntOfReal (256 * intensity.clamp (linear_to_gamma pixel_color.y)),
   cppIntOfReal (256 * intensity.clamp (linear_to_gamma pixel_color.z)))

/-- Modelled from the spec: the background gradient of the recursive
    integrator (§4.4), `(1−a)·white + a·(0.5,0.7,1.0)` with
    `a = 0.5·(unit_direction.y + 1)`. -/
def background (r : ray) : color :=
  let unit_direction := unit_vector r.direction
  let a := 0.5 * (unit_direction.y + 1.0)
  vec3.add (vec3.smul (1.0 - a) ⟨1.0, 1.0, 1.0⟩) (vec3.smul a ⟨0.5, 0.7, 1.0⟩)

/-- Modelled from the spec: the recursive integrator `camera::ray_color`
    (§4.4).  The file `camera.h` is referenced by `constants.h` and called
    from `src/src/main.cpp` but is not present in the source tree, so the
    integrator is modelled from the specification's words: a ray whose depth
    budget is exhausted contributes black; otherwise the ray is tested
    against the scene (the scene query, restricted to the interval
    `(0.001, +infinity)`, and the material's stochastic scatter decision are
    abstracted as the function arguments `world_query` and `scatter`); a
    scattered ray recurses with `depth - 1` and multiplies by the
    attenuation; an absorbed ray yields black; a miss yields the background
    gradient. -/
def ray_color (world_query : ray → Option hit_record)
    (scatter : ray → hit_record → Option (color × ray)) : ray → ℕ → color
  | _, 0 => ⟨0, 0, 0⟩
  | r, depth + 1 =>
      match world_query r with
      | some rec =>
          match scatter r rec with
          | some (attenuation, scattered) =>
              vec3.mul attenuation (ray_color world_query scatter scattered depth)
          | none => ⟨0, 0, 0⟩
      | none => background r

/-! ### Basic lemmas about the vector algebra -/

theorem vec3.length_squared_nonneg (v : vec3) : 0 ≤ v.length_squared := by
  unfold vec3.length_squared
  nlinarith [mul_self_nonneg v.x, mul_self_nonneg v.y, mul_self_nonneg v.z]

theorem vec3.length_squared_eq_zero_iff (v : vec3) :
    v.length_squared = 0 ↔ v = vec3.zero := by
  unfold vec3.length_squared vec3.zero
  constructor
  · intro h
    have hx : v.x = 0 := by
      nlinarith [mul_self_nonneg v.x, mul_self_nonneg v.y, mul_self_nonneg v.z]
    have hy : v.y = 0 := by
      nlinarith [mul_self_nonneg v.x, mul_self_nonneg v.y, mul_self_nonneg v.z]
    have hz : v.z = 0 := by
      nlinarith [mul_self_nonneg v.x, mul_self_nonneg v.y, mul_self_nonneg v.z]
    ext <;> simp [hx, hy, hz]
  · intro h
    rw [h]; norm_num

theorem vec3.length_nonneg (v : vec3) : 0 ≤ v.length := Real.sqrt_nonneg _

theorem vec3.length_eq_zero_iff (v : vec3) : v.length = 0 ↔ v = vec3.zero := by
  unfold vec3.length
  rw [Real.sqrt_eq_zero (vec3.length_squared_nonneg v)]
  exact vec3.length_squared_eq_zero_iff v

theorem vec3.length_squared_smul (t : ℝ) (v : vec3) :
    (vec3.smul t v).length_squared = t ^ 2 * v.length_squared := by
  unfold vec3.smul vec3.length_squared; ring

theorem unit_vector_length_squared (v : vec3) (h : v ≠ vec3.zero) :
    (unit_vector v).length_squared = 1 := by
  have hlsq : 0 < v.length_squared :=
    lt_of_le_of_ne (vec3.length_squared_nonneg v)
      (fun h0 => h ((vec3.length_squared_eq_zero_iff v).mp h0.symm))
  have hlen : v.length ≠ 0 := fun h0 => h ((vec3.length_eq_zero_iff v).mp h0)
  have hsq : v.length ^ 2 = v.length_squared := Real.sq_sqrt (le_of_lt hlsq)
  unfold unit_vector
  rw [if_neg hlen]
  unfold vec3.divs
  rw [vec3.length_squared_smul]
  rw [div_pow, one_pow, hsq]
  field_simp

theorem dot_neg_left (u v : vec3) : dot (vec3.neg u) v = -(dot u v) := by
  unfold dot vec3.neg; ring

/-! ### Claim C2: recursion bounded by the depth budget -/

/-- Claim C2: evaluated with a recursion-depth budget of zero, the integrator
    returns exactly black for every ray, every scene query and every material
    scatter behaviour. -/
theorem C2_ray_color_depth_zero_black
    (world_query : ray → Option hit_record)
    (scatter : ray → hit_record → Option (color × ray)) (r : ray) :
    ray_color world_query scatter r 0 = (⟨0, 0, 0⟩ : color) := rfl

/-! ### Claim C8: negative sphere radius is clamped to zero -/

/-- Claim C8: `sphere::sphere` stores `fmax(0, radius)`, so the stored radius
    is always non-negative, a negative argument is floored to zero rather
    than rejected, and centre and material are stored unchanged. -/
theorem C8_sphere_radius_clamped (center : point3) (radius : ℝ) (mat : ℕ) :
    (sphere.make center radius mat).radius = max 0 radius ∧
    0 ≤ (sphere.make center radius mat).radius ∧
    (radius < 0 → (sphere.make center radius mat).radius = 0) ∧
    (sphere.make center radius mat).center = center ∧
    (sphere.make center radius mat).mat = mat := by
  refine ⟨rfl, le_max_left 0 radius, ?_, rfl, rfl⟩
  intro hneg
  simp [sphere.make, max_eq_left hneg.le]

/-- Witness for C8 at the concrete input `radius = -1`. -/
theorem C8_sphere_radius_clamped_witness :
    (sphere.make vec3.zero (-1) 0).radius = 0 :=
  (C8_sphere_radius_clamped vec3.zero (-1) 0).2.2.1 (by norm_num)

/-! ### Claim C5: metal fuzz clamping -/

/-- Counterexample to claim C5: the constructor `metal::metal` only clamps
    the fuzz from above (`fuzz < 1 ? fuzz : 1`); the argument `-2` is stored
    unchanged, so the stored roughness is not in `[0, 1]`. -/
theorem C5_counterexample :
    (metal.make ⟨1, 1, 1⟩ (-2)).fuzz = -2 ∧
    ¬ 0 ≤ (metal.make ⟨1, 1, 1⟩ (-2)).fuzz := by
  have h : (metal.make ⟨1, 1, 1⟩ (-2)).fuzz = -2 := by
    unfold metal.make
    rw [if_pos (by norm_num)]
  exact ⟨h, by rw [h]; norm_num⟩

/-- Claim C5 as amended: the stored fuzz is `min fuzz 1` — clamped from
    above to at most `1`, unchanged otherwise; in particular a non-negative
    argument yields a stored value in `[0, 1]`, but a negative argument is
    stored unchanged (no lower clamp). -/
theorem C5_amended_metal_fuzz (albedo : color) (fuzz : ℝ) :
    (metal.make albedo fuzz).fuzz = min fuzz 1 ∧
    (metal.make albedo fuzz).fuzz ≤ 1 ∧
    (0 ≤ fuzz → 0 ≤ (metal.make albedo fuzz).fuzz ∧ (metal.make albedo fuzz).fuzz ≤ 1) := by
  have h : (metal.make albedo fuzz).fuzz = min fuzz 1 := by
    unfold metal.make
    rcases lt_or_le fuzz 1 with hf | hf
    · rw [if_pos hf, min_eq_left hf.le]
    · rw [if_neg (not_lt.mpr hf), min_eq_right hf]
  refine ⟨h, h ▸ min_le_right fuzz 1, fun h0 => ⟨h ▸ le_min h0 zero_le_one, h ▸ min_le_right fuzz 1⟩⟩

/-- Witness for the amended C5 at the concrete input `fuzz = 1/2`. -/
theorem C5_amended_metal_fuzz_witness :
    0 ≤ (metal.make ⟨1, 1, 1⟩ (1 / 2)).fuzz ∧ (metal.make ⟨1, 1, 1⟩ (1 / 2)).fuzz ≤ 1 :=
  (C5_amended_metal_fuzz ⟨1, 1, 1⟩ (1 / 2)).2.2 (by norm_num)

/-! ### Claim C9: totality of unit_vector -/

/-- Claim C9: `unit_vector` is total — a nonzero vector is normalised to
    length `1`, and the zero vector is mapped to the zero vector by the
    explicit zero-length guard (no division by zero is performed). -/
theorem C9_unit_vector_total (v : vec3) :
    (v ≠ vec3.zero → (unit_vector v).length = 1) ∧
    unit_vector vec3.zero = vec3.zero := by
  constructor
  · intro h
    unfold vec3.length
    rw [unit_vector_length_squared v h, Real.sqrt_one]
  · unfold unit_vector
    rw [if_pos]
    rw [vec3.length_eq_zero_iff]

/-- Witness for C9 at the concrete nonzero input `(1, 2, 2)`. -/
theorem C9_unit_vector_total_witness :
    (unit_vector ⟨1, 2, 2⟩).length = 1 :=
  (C9_unit_vector_total ⟨1, 2, 2⟩).1 (by
    intro h
    have hx := congrArg vec3.x h
    simp [vec3.zero] at hx)

/-! ### Claim C10: the caller's record is untouched unless a member hits -/

theorem hittable_list.hitGo_true_flag (r : ray) (lo : ℝ) (objs : List sphere) :
    ∀ closest rec, (hittable_list.hitGo r lo objs closest true rec).1 = true := by
  induction objs with
  | nil => intro closest rec; rfl
  | cons o rest ih =>
      intro closest rec
      unfold hittable_list.hitGo
      cases o.hit r ⟨lo, closest⟩ with
      | some temp_rec => exact ih temp_rec.t temp_rec
      | none => exact ih closest rec

theorem hittable_list.hitGo_false_unchanged (r : ray) (lo : ℝ) (objs : List sphere) :
    ∀ closest rec, (hittable_list.hitGo r lo objs closest false rec).1 = false →
      (hittable_list.hitGo r lo objs closest false rec).2 = rec := by
  induction objs with
  | nil => intro closest rec _; rfl
  | cons o rest ih =>
      intro closest rec hflag
      unfold hittable_list.hitGo at hflag ⊢
      cases h : o.hit r ⟨lo, closest⟩ with
      | some temp_rec =>
          rw [h] at hflag
          rw [hittable_list.hitGo_true_flag r lo rest temp_rec.t temp_rec] at hflag
          exact absurd hflag (by simp)
      | none =>
          rw [h] at hflag
          exact ih closest rec hflag

/-- Claim C10: when `hittable_list::hit` returns `false` the caller's
    `hit_record` out-parameter is completely unchanged — in particular the
    empty list always returns `false` with the record untouched; the record
    is overwritten only when some member reports a hit. -/
theorem C10_hittable_list_miss_leaves_record
    (objects : List sphere) (r : ray) (ray_t : interval) (rec : hit_record) :
    ((hittable_list.hit objects r ray_t rec).1 = false →
      (hittable_list.hit objects r ray_t rec).2 = rec) ∧
    hittable_list.hit [] r ray_t rec = (false, rec) := by
  exact ⟨hittable_list.hitGo_false_unchanged r ray_t.min objects ray_t.max rec, rfl⟩

/-- Witness for C10: a concrete one-sphere scene in which the ray points
    away from the sphere, so the query misses and the incoming record — with
    recognisable concrete contents — is returned unchanged. -/
theorem C10_hittable_list_miss_leaves_record_witness :
    (hittable_list.hit [sphere.make ⟨0, 0, -2⟩ 1 0]
        ⟨⟨0, 0, 0⟩, ⟨0, 0, 1⟩⟩ ⟨0, 10⟩ ⟨⟨5, 6, 7⟩, ⟨8, 9, 10⟩, 11, True, 12⟩).2 =
      ⟨⟨5, 6, 7⟩, ⟨8, 9, 10⟩, 11, True, 12⟩ := by
  apply (C10_hittable_list_miss_leaves_record
    [sphere.make ⟨0, 0, -2⟩ 1 0] ⟨⟨0, 0, 0⟩, ⟨0, 0, 1⟩⟩ ⟨0, 10⟩
    ⟨⟨5, 6, 7⟩, ⟨8, 9, 10⟩, 11, True, 12⟩).1
  have hmiss : (sphere.make ⟨0, 0, -2⟩ 1 0).hit ⟨⟨0, 0, 0⟩, ⟨0, 0, 1⟩⟩ ⟨0, 10⟩ = none := by
    rw [sphere.hit_eq_cases]
    have hdisc : (sphere.make ⟨0, 0, -2⟩ 1 0).disc ⟨⟨0, 0, 0⟩, ⟨0, 0, 1⟩⟩ = 1 := by
      unfold sphere.disc sphere.qa sphere.qh sphere.qc sphere.make dot vec3.sub
        vec3.length_squared
      norm_num
    have hqh : (sphere.make ⟨0, 0, -2⟩ 1 0).qh ⟨⟨0, 0, 0⟩, ⟨0, 0, 1⟩⟩ = -2 := by
      unfold sphere.qh sphere.make dot vec3.sub
      norm_num
    have hqa : (sphere.make ⟨0, 0, -2⟩ 1 0).qa ⟨⟨0, 0, 0⟩, ⟨0, 0, 1⟩⟩ = 1 := by
      unfold sphere.qa vec3.length_squared
      norm_num
    have hr1 : (sphere.make ⟨0, 0, -2⟩ 1 0).root1 ⟨⟨0, 0, 0⟩, ⟨0, 0, 1⟩⟩ = -3 := by
      unfold sphere.root1
      rw [hdisc, hqh, hqa, Real.sqrt_one]
      norm_num
    have hr2 : (sphere.make ⟨0, 0, -2⟩ 1 0).root2 ⟨⟨0, 0, 0⟩, ⟨0, 0, 1⟩⟩ = -1 := by
      unfold sphere.root2
      rw [hdisc, hqh, hqa, Real.sqrt_one]
      norm_num
    rw [if_neg (by rw [hdisc]; norm_num)]
    rw [if_neg (by rw [hr1]; unfold interval.surrounds; norm_num)]
    rw [if_neg (by rw [hr2]; unfold interval.surrounds; norm_num)]
  unfold hittable_list.hit hittable_list.hitGo
  rw [hmiss]
  rfl

/-! ### Claim C1: the output encoder -/

theorem interval.clamp_le (i : interval) (hle : i.min ≤ i.max) (x : ℝ) :
    i.min ≤ i.clamp x ∧ i.clamp x ≤ i.max := by
  unfold interval.clamp
  split_ifs with h1 h2
  · exact ⟨le_refl _, hle⟩
  · exact ⟨hle, le_refl _⟩
  · exact ⟨not_lt.mp h1, not_lt.mp h2⟩

theorem cppIntOfReal_of_nonneg (x : ℝ) (h : 0 ≤ x) : cppIntOfReal x = ⌊x⌋ := by
  unfold cppIntOfReal
  rw [if_pos h]

theorem intensity_clamp_bounds (x : ℝ) :
    0 ≤ intensity.clamp x ∧ intensity.clamp x ≤ 0.999 := by
  have h := interval.clamp_le intensity (by norm_num [intensity]) x
  have hmin : intensity.min = 0 := by norm_num [intensity]
  have hmax : intensity.max = 0.999 := by norm_num [intensity]
  rw [hmin] at h
  rw [hmax] at h
  exact h

theorem intensity_byte_range (x : ℝ) :
    0 ≤ cppIntOfReal (256 * intensity.clamp x) ∧
    cppIntOfReal (256 * intensity.clamp x) ≤ 255 := by
  have hb := intensity_clamp_bounds x
  have h0 : (0 : ℝ) ≤ 256 * intensity.clamp x := by nlinarith [hb.1]
  rw [cppIntOfReal_of_nonneg _ h0]
  constructor
  · exact_mod_cast Int.le_floor.mpr (by exact_mod_cast h0)
  · have hup : (256 : ℝ) * intensity.clamp x < 256 := by nlinarith [hb.2]
    have hf : ⌊(256 : ℝ) * intensity.clamp x⌋ < (256 : ℤ) :=
      Int.floor_lt.mpr (by exact_mod_cast hup)
    linarith

/-- Counterexample to claim C1: `write_color` applies no gamma encoding.
    On the all-`1/4` pixel the code emits `int(256*clamp(1/4)) = 64` per
    channel, while the claimed `int(256*clamp(sqrt(1/4))) = 128`; the two
    encoders disagree at this concrete input. -/
theorem C1_counterexample :
    write_color ⟨1 / 4, 1 / 4, 1 / 4⟩ ≠ write_color_speced ⟨1 / 4, 1 / 4, 1 / 4⟩ ∧
    write_color ⟨1 / 4, 1 / 4, 1 / 4⟩ = (64, 64, 64) ∧
    write_color_speced ⟨1 / 4, 1 / 4, 1 / 4⟩ = (128, 128, 128) := by
  have hclamp14 : intensity.clamp (1 / 4) = 1 / 4 := by
    unfold intensity interval.clamp
    norm_num
  have hclamp12 : intensity.clamp (1 / 2) = 1 / 2 := by
    unfold intensity interval.clamp
    norm_num
  have hgamma : linear_to_gamma (1 / 4) = 1 / 2 := by
    unfold linear_to_gamma
    rw [if_pos (by norm_num)]
    rw [show (1 / 4 : ℝ) = (1 / 2) ^ 2 by norm_num, Real.sqrt_sq (by norm_num)]
  have h64 : cppIntOfReal (64 : ℝ) = 64 := by
    rw [cppIntOfReal_of_nonneg _ (by norm_num)]
    rw [show (64 : ℝ) = ((64 : ℤ) : ℝ) by norm_num, Int.floor_intCast]
  have h128 : cppIntOfReal (128 : ℝ) = 128 := by
    rw [cppIntOfReal_of_nonneg _ (by norm_num)]
    rw [show (128 : ℝ) = ((128 : ℤ) : ℝ) by norm_num, Int.floor_intCast]
  have hw : write_color ⟨1 / 4, 1 / 4, 1 / 4⟩ = (64, 64, 64) := by
    simp only [write_color]
    norm_num [hclamp14, h64]
  have hs : write_color_speced ⟨1 / 4, 1 / 4, 1 / 4⟩ = (128, 128, 128) := by
    simp only [write_color_speced]
    norm_num [hgamma, hclamp12, h128]
  refine ⟨?_, hw, hs⟩
  rw [hw, hs]
  decide

/-- Claim C1 as amended: `write_color` quantises each raw linear component
    directly — `int(256*clamp(component))` with the clamp into
    `[0, 0.999]` — with no gamma step (`linear_to_gamma` is defined in the
    header but never applied), and every emitted integer lies in
    `[0, 255]`. -/
theorem C1_amended_write_color_no_gamma (pixel_color : color) :
    write_color pixel_color =
      (⌊256 * intensity.clamp pixel_color.x⌋,
       ⌊256 * intensity.clamp pixel_color.y⌋,
       ⌊256 * intensity.clamp pixel_color.z⌋) ∧
    (0 ≤ (write_color pixel_color).1 ∧ (write_color pixel_color).1 ≤ 255) ∧
    (0 ≤ (write_color pixel_color).2.1 ∧ (write_color pixel_color).2.1 ≤ 255) ∧
    (0 ≤ (write_color pixel_color).2.2 ∧ (write_color pixel_color).2.2 ≤ 255) := by
  have hfloor : ∀ x : ℝ, cppIntOfReal (256 * intensity.clamp x) = ⌊256 * intensity.clamp x⌋ := by
    intro x
    have hb := intensity_clamp_bounds x
    refine cppIntOfReal_of_nonneg _ ?_
    nlinarith [hb.1]
  refine ⟨?_, ?_, ?_, ?_⟩
  · simp only [write_color]
    rw [hfloor, hfloor, hfloor]
  · exact intensity_byte_range pixel_color.x
  · exact intensity_byte_range pixel_color.y
  · exact intensity_byte_range pixel_color.z

/-! ### Claim C4: quadratic root selection in sphere::hit -/

theorem sphere.record_t (s : sphere) (r : ray) (root : ℝ) :
    (s.record r root).t = root := rfl

theorem sphere.record_p (s : sphere) (r : ray) (root : ℝ) :
    (s.record r root).p = r.at root := rfl

theorem sphere.record_mat (s : sphere) (r : ray) (root : ℝ) :
    (s.record r root).mat = s.mat := rfl

theorem sphere.qa_nonneg (s : sphere) (r : ray) : 0 ≤ s.qa r :=
  vec3.length_squared_nonneg r.direction

theorem sphere.root1_le_root2 (s : sphere) (r : ray) : s.root1 r ≤ s.root2 r := by
  unfold sphere.root1 sphere.root2
  rcases eq_or_lt_of_le (sphere.qa_nonneg s r) with ha | ha
  · rw [← ha, div_zero, div_zero]
  · rw [div_le_div_iff₀ ha ha]
    nlinarith [Real.sqrt_nonneg (s.disc r)]

/-- Claim C4: `sphere::hit` implements quadratic root selection — a negative
    discriminant reports no hit; otherwise the root `(h-sqrt(disc))/a` is
    accepted when the open query interval strictly surrounds it, else the
    root `(h+sqrt(disc))/a` is tried, else no hit is reported; any returned
    record carries one of the two roots as `t`, strictly inside the
    interval, with the point `ray.at(t)`; and for `a > 0` the root tried
    first is the smaller one. -/
theorem C4_sphere_hit_root_selection (s : sphere) (r : ray) (ray_t : interval) :
    (s.disc r < 0 → s.hit r ray_t = none) ∧
    (0 ≤ s.disc r → ray_t.surrounds (s.root1 r) →
        s.hit r ray_t = some (s.record r (s.root1 r))) ∧
    (0 ≤ s.disc r → ¬ ray_t.surrounds (s.root1 r) → ray_t.surrounds (s.root2 r) →
        s.hit r ray_t = some (s.record r (s.root2 r))) ∧
    (¬ ray_t.surrounds (s.root1 r) → ¬ ray_t.surrounds (s.root2 r) →
        s.hit r ray_t = none) ∧
    (∀ rec, s.hit r ray_t = some rec →
        (rec.t = s.root1 r ∨ rec.t = s.root2 r) ∧ ray_t.surrounds rec.t ∧
        rec.p = r.at rec.t) ∧
    (0 < s.qa r → s.root1 r ≤ s.root2 r) := by
  rw [sphere.hit_eq_cases]
  refine ⟨?_, ?_, ?_, ?_, ?_, fun _ => sphere.root1_le_root2 s r⟩
  · intro hd
    rw [if_pos hd]
  · intro hd h1
    rw [if_neg (not_lt.mpr hd), if_pos h1]
  · intro hd h1 h2
    rw [if_neg (not_lt.mpr hd), if_neg h1, if_pos h2]
  · intro h1 h2
    by_cases hd : s.disc r < 0
    · rw [if_pos hd]
    · rw [if_neg hd, if_neg h1, if_neg h2]
  · intro rec h
    by_cases hd : s.disc r < 0
    · rw [if_pos hd] at h
      exact Option.noConfusion h
    · rw [if_neg hd] at h
      by_cases h1 : ray_t.surrounds (s.root1 r)
      · rw [if_pos h1] at h
        have he : s.record r (s.root1 r) = rec := Option.some.inj h
        rw [← he, sphere.record_t, sphere.record_p]
        exact ⟨Or.inl rfl, h1, rfl⟩
      · rw [if_neg h1] at h
        by_cases h2 : ray_t.surrounds (s.root2 r)
        · rw [if_pos h2] at h
          have he : s.record r (s.root2 r) = rec := Option.some.inj h
          rw [← he, sphere.record_t, sphere.record_p]
          exact ⟨Or.inr rfl, h2, rfl⟩
        · rw [if_neg h2] at h
          exact Option.noConfusion h

/-- Witness for C4 at a concrete sphere and ray: centre `(0,0,-2)`, radius
    `1`, ray from the origin along `(0,0,-1)`; the discriminant is `1` and
    the first root `1` lies inside `(0, 10)`, so the hit returns the record
    at root `1`. -/
theorem C4_sphere_hit_root_selection_witness :
    (sphere.make ⟨0, 0, -2⟩ 1 0).hit ⟨⟨0, 0, 0⟩, ⟨0, 0, -1⟩⟩ ⟨0, 10⟩ =
      some ((sphere.make ⟨0, 0, -2⟩ 1 0).record ⟨⟨0, 0, 0⟩, ⟨0, 0, -1⟩⟩
        ((sphere.make ⟨0, 0, -2⟩ 1 0).root1 ⟨⟨0, 0, 0⟩, ⟨0, 0, -1⟩⟩)) := by
  have hdisc : (sphere.make ⟨0, 0, -2⟩ 1 0).disc ⟨⟨0, 0, 0⟩, ⟨0, 0, -1⟩⟩ = 1 := by
    unfold sphere.disc sphere.qa sphere.qh sphere.qc sphere.make dot vec3.sub
      vec3.length_squared
    norm_num
  have hr1 : (sphere.make ⟨0, 0, -2⟩ 1 0).root1 ⟨⟨0, 0, 0⟩, ⟨0, 0, -1⟩⟩ = 1 := by
    unfold sphere.root1
    rw [hdisc, Real.sqrt_one]
    unfold sphere.qh sphere.qa sphere.make dot vec3.sub vec3.length_squared
    norm_num
  exact (C4_sphere_hit_root_selection (sphere.make ⟨0, 0, -2⟩ 1 0)
    ⟨⟨0, 0, 0⟩, ⟨0, 0, -1⟩⟩ ⟨0, 10⟩).2.1 (by rw [hdisc]; norm_num)
    (by rw [hr1]; unfold interval.surrounds; norm_num)

/-! ### Inversion and evaluation helpers for sphere::hit -/

theorem sphere.hit_some1 (s : sphere) (r : ray) (ray_t : interval)
    (hd : ¬ s.disc r < 0) (h1 : ray_t.surrounds (s.root1 r)) :
    s.hit r ray_t = some (s.record r (s.root1 r)) := by
  rw [sphere.hit_eq_cases, if_neg hd, if_pos h1]

theorem sphere.hit_some2 (s : sphere) (r : ray) (ray_t : interval)
    (hd : ¬ s.disc r < 0) (h1 : ¬ ray_t.surrounds (s.root1 r))
    (h2 : ray_t.surrounds (s.root2 r)) :
    s.hit r ray_t = some (s.record r (s.root2 r)) := by
  rw [sphere.hit_eq_cases, if_neg hd, if_neg h1, if_pos h2]

theorem sphere.hit_none_of_miss (s : sphere) (r : ray) (ray_t : interval)
    (h1 : ¬ ray_t.surrounds (s.root1 r)) (h2 : ¬ ray_t.surrounds (s.root2 r)) :
    s.hit r ray_t = none := by
  rw [sphere.hit_eq_cases]
  by_cases hd : s.disc r < 0
  · rw [if_pos hd]
  · rw [if_neg hd, if_neg h1, if_neg h2]

theorem sphere.hit_inv (s : sphere) (r : ray) (ray_t : interval) (rec : hit_record)
    (h : s.hit r ray_t = some rec) :
    ¬ s.disc r < 0 ∧
    ((ray_t.surrounds (s.root1 r) ∧ rec = s.record r (s.root1 r)) ∨
     (¬ ray_t.surrounds (s.root1 r) ∧ ray_t.surrounds (s.root2 r) ∧
       rec = s.record r (s.root2 r))) := by
  rw [sphere.hit_eq_cases] at h
  by_cases hd : s.disc r < 0
  · rw [if_pos hd] at h
    exact Option.noConfusion h
  · rw [if_neg hd] at h
    refine ⟨hd, ?_⟩
    by_cases h1 : ray_t.surrounds (s.root1 r)
    · rw [if_pos h1] at h
      exact Or.inl ⟨h1, (Option.some.inj h).symm⟩
    · rw [if_neg h1] at h
      by_cases h2 : ray_t.surrounds (s.root2 r)
      · rw [if_pos h2] at h
        exact Or.inr ⟨h1, h2, (Option.some.inj h).symm⟩
      · rw [if_neg h2] at h
        exact Option.noConfusion h

/-! ### Claim C7: orientation of the stored normal -/

theorem sphere.record_front_face (s : sphere) (r : ray) (root : ℝ) :
    (s.record r root).front_face =
      (dot r.direction (vec3.divs (vec3.sub (r.at root) s.center) s.radius) < 0) := rfl

theorem sphere.record_normal (s : sphere) (r : ray) (root : ℝ) :
    (s.record r root).normal =
      (if dot r.direction (vec3.divs (vec3.sub (r.at root) s.center) s.radius) < 0
       then vec3.divs (vec3.sub (r.at root) s.center) s.radius
       else vec3.neg (vec3.divs (vec3.sub (r.at root) s.center) s.radius)) := rfl

theorem dot_neg_right (u v : vec3) : dot u (vec3.neg v) = -(dot u v) := by
  unfold dot vec3.neg; ring

instance : Inhabited hit_record := ⟨⟨vec3.zero, vec3.zero, 0, False, 0⟩⟩

/-- The default ray used in concrete evaluations: origin at the camera
    centre, direction straight down the negative z axis. -/
def ray0 : ray := ⟨⟨0, 0, 0⟩, ⟨0, 0, -1⟩⟩

/-- A unit sphere touched tangentially by `ray0`: centre `(0,1,-2)`. -/
def tangentSphere : sphere := sphere.make ⟨0, 1, -2⟩ 1 0

theorem tangentSphere_hit_eval :
    tangentSphere.hit ray0 ⟨0, 10⟩ = some (tangentSphere.record ray0 2) := by
  have hdisc : tangentSphere.disc ray0 = 0 := by
    unfold tangentSphere sphere.disc sphere.qa sphere.qh sphere.qc sphere.make ray0
      dot vec3.sub vec3.length_squared
    norm_num [max_eq_right]
  have hr1 : tangentSphere.root1 ray0 = 2 := by
    unfold sphere.root1
    rw [hdisc, Real.sqrt_zero]
    unfold tangentSphere sphere.qh sphere.qa sphere.make ray0 dot vec3.sub
      vec3.length_squared
    norm_num
  have h := sphere.hit_some1 tangentSphere ray0 ⟨0, 10⟩
    (by rw [hdisc]; norm_num) (by rw [hr1]; unfold interval.surrounds; norm_num)
  rw [hr1] at h
  exact h

/-- Counterexample to claim C7: for the tangent ray `ray0` against
    `tangentSphere` the intersection test produces a record, and the dot
    product of the ray direction with the stored (orientation-corrected)
    normal is exactly `0`, not negative. -/
theorem C7_counterexample :
    (tangentSphere.hit ray0 ⟨0, 10⟩).isSome = true ∧
    dot ray0.direction (((tangentSphere.hit ray0 ⟨0, 10⟩).getD default).normal) = 0 := by
  rw [tangentSphere_hit_eval]
  refine ⟨rfl, ?_⟩
  rw [Option.getD_some, sphere.record_normal]
  have hE : dot ray0.direction
      (vec3.divs (vec3.sub (ray0.at 2) tangentSphere.center) tangentSphere.radius) = 0 := by
    unfold tangentSphere sphere.make ray0 ray.at dot vec3.divs vec3.smul vec3.add vec3.sub
    norm_num
  rw [if_neg (by rw [hE]; norm_num), dot_neg_right, hE]
  norm_num

/-- Claim C7 as amended: in every record produced by `sphere::hit` the
    stored normal never points with the incident ray — its dot product with
    the ray direction is non-positive, vanishing exactly when the outward
    normal is perpendicular to the ray (tangential contact) — and
    `front_face` holds exactly when the unflipped outward normal
    `(p - center)/radius` opposes the incoming ray. -/
theorem C7_amended_normal_orientation (s : sphere) (r : ray) (ray_t : interval)
    (rec : hit_record) (h : s.hit r ray_t = some rec) :
    dot r.direction rec.normal ≤ 0 ∧
    (rec.front_face ↔
      dot r.direction (vec3.divs (vec3.sub rec.p s.center) s.radius) < 0) ∧
    (dot r.direction rec.normal = 0 ↔
      dot r.direction (vec3.divs (vec3.sub rec.p s.center) s.radius) = 0) := by
  obtain ⟨root, hroot⟩ : ∃ root, rec = s.record r root := by
    rcases (sphere.hit_inv s r ray_t rec h).2 with ⟨_, he⟩ | ⟨_, _, he⟩
    · exact ⟨s.root1 r, he⟩
    · exact ⟨s.root2 r, he⟩
  subst hroot
  rw [sphere.record_normal, sphere.record_front_face, sphere.record_p]
  by_cases hd : dot r.direction (vec3.divs (vec3.sub (r.at root) s.center) s.radius) < 0
  · rw [if_pos hd]
    exact ⟨le_of_lt hd, by simp [hd], Iff.rfl⟩
  · rw [if_neg hd]
    rw [dot_neg_right]
    refine ⟨?_, by simp [hd], ?_⟩
    · linarith [not_lt.mp hd]
    · constructor
      · intro h0; linarith
      · intro h0; rw [h0]; norm_num

/-- Witness for the amended C7: the non-tangent sphere at `(0,0,-2)` hit by
    `ray0` yields a record whose normal has non-positive dot product with
    the ray direction. -/
theorem C7_amended_normal_orientation_witness :
    dot ray0.direction
      (((sphere.make ⟨0, 0, -2⟩ 1 0).record ray0 1).normal) ≤ 0 := by
  have hdisc : (sphere.make ⟨0, 0, -2⟩ 1 0).disc ray0 = 1 := by
    unfold sphere.disc sphere.qa sphere.qh sphere.qc sphere.make ray0 dot vec3.sub
      vec3.length_squared
    norm_num [max_eq_right]
  have hr1 : (sphere.make ⟨0, 0, -2⟩ 1 0).root1 ray0 = 1 := by
    unfold sphere.root1
    rw [hdisc, Real.sqrt_one]
    unfold sphere.qh sphere.qa sphere.make ray0 dot vec3.sub vec3.length_squared
    norm_num
  have hhit : (sphere.make ⟨0, 0, -2⟩ 1 0).hit ray0 ⟨0, 10⟩ =
      some ((sphere.make ⟨0, 0, -2⟩ 1 0).record ray0 1) := by
    have h := sphere.hit_some1 (sphere.make ⟨0, 0, -2⟩ 1 0) ray0 ⟨0, 10⟩
      (by rw [hdisc]; norm_num) (by rw [hr1]; unfold interval.surrounds; norm_num)
    rw [hr1] at h
    exact h
  exact (C7_amended_normal_orientation (sphere.make ⟨0, 0, -2⟩ 1 0) ray0 ⟨0, 10⟩
    ((sphere.make ⟨0, 0, -2⟩ 1 0).record ray0 1) hhit).1

/-! ### Claim C6: dielectric with refraction index 1 -/

theorem dot_sq_le (u v : vec3) :
    dot u v * dot u v ≤ u.length_squared * v.length_squared := by
  unfold dot vec3.length_squared
  nlinarith [sq_nonneg (u.x * v.y - u.y * v.x), sq_nonneg (u.x * v.z - u.z * v.x),
    sq_nonneg (u.y * v.z - u.z * v.y)]

theorem vec3.length_squared_neg (v : vec3) :
    (vec3.neg v).length_squared = v.length_squared := by
  unfold vec3.neg vec3.length_squared; ring

/-- With an index ratio of `1`, `refract` is the identity on a unit incoming
    direction whose angle with the unit normal is non-obtuse. -/
theorem refract_eta_one (uv n : vec3) (huv : uv.length_squared = 1)
    (hn : n.length_squared = 1) (hopp : 0 ≤ dot (vec3.neg uv) n) :
    refract uv n 1 = uv := by
  have hcs := dot_sq_le (vec3.neg uv) n
  rw [vec3.length_squared_neg, huv, hn] at hcs
  have hle1 : dot (vec3.neg uv) n ≤ 1 := by nlinarith
  simp only [refract]
  rw [show (1.0 : ℝ) = 1 from by norm_num]
  rw [min_eq_left hle1]
  have hperp : (vec3.smul 1 (vec3.add uv (vec3.smul (dot (vec3.neg uv) n) n))).length_squared
      = 1 - dot (vec3.neg uv) n * dot (vec3.neg uv) n := by
    simp only [dot, vec3.neg, vec3.smul, vec3.add, vec3.length_squared] at huv hn ⊢
    linear_combination huv + (uv.x * n.x + uv.y * n.y + uv.z * n.z) ^ 2 * hn
  rw [hperp]
  rw [show (1 : ℝ) - (1 - dot (vec3.neg uv) n * dot (vec3.neg uv) n)
      = dot (vec3.neg uv) n * dot (vec3.neg uv) n from by ring]
  rw [abs_of_nonneg (mul_self_nonneg _), Real.sqrt_mul_self hopp]
  ext <;> simp only [dot, vec3.neg, vec3.smul, vec3.add] <;> ring

/-- Counterexample to claim C6: with `refraction_index = 1`, a reflectance
    draw of `0` at non-normal incidence selects the reflect branch, and the
    scattered direction is the mirror reflection, not the incoming unit
    direction.  Concretely: incoming direction `(3,0,-4)` against normal
    `(0,0,1)` scatters to `(3/5, 0, 4/5)` while the unit incoming direction
    is `(3/5, 0, -4/5)`. -/
theorem C6_counterexample :
    (dielectric.scatter 1 ⟨⟨0, 0, 0⟩, ⟨3, 0, -4⟩⟩
        ⟨⟨0, 0, 0⟩, ⟨0, 0, 1⟩, 0, True, 0⟩ 0).2.direction ≠
      unit_vector (⟨3, 0, -4⟩ : vec3) := by
  have hlen : (⟨3, 0, -4⟩ : vec3).length = 5 := by
    unfold vec3.length vec3.length_squared
    rw [show (3 : ℝ) * 3 + 0 * 0 + -4 * -4 = 5 ^ 2 from by norm_num,
      Real.sqrt_sq (by norm_num)]
  have huv : unit_vector (⟨3, 0, -4⟩ : vec3) = ⟨3 / 5, 0, -4 / 5⟩ := by
    unfold unit_vector
    rw [if_neg (by rw [hlen]; norm_num), hlen]
    unfold vec3.divs vec3.smul
    ext <;> norm_num
  have hrefl : dielectric.reflects 1 ⟨⟨0, 0, 0⟩, ⟨3, 0, -4⟩⟩
      ⟨⟨0, 0, 0⟩, ⟨0, 0, 1⟩, 0, True, 0⟩ 0 := by
    simp only [dielectric.reflects]
    refine Or.inr ?_
    rw [huv]
    rw [if_pos trivial]
    rw [show dot (vec3.neg ⟨3 / 5, 0, -4 / 5⟩) ⟨0, 0, 1⟩ = 4 / 5 from by
      unfold dot vec3.neg; norm_num]
    rw [show min (4 / 5 : ℝ) 1.0 = 4 / 5 from by
      rw [show (1.0 : ℝ) = 1 from by norm_num]
      exact min_eq_left (by norm_num)]
    unfold dielectric.reflectance
    norm_num
  have hscat : (dielectric.scatter 1 ⟨⟨0, 0, 0⟩, ⟨3, 0, -4⟩⟩
      ⟨⟨0, 0, 0⟩, ⟨0, 0, 1⟩, 0, True, 0⟩ 0).2.direction
      = reflect (unit_vector ⟨3, 0, -4⟩) ⟨0, 0, 1⟩ := by
    simp only [dielectric.scatter]
    rw [if_pos hrefl]
  rw [hscat, huv]
  unfold reflect
  rw [show dot (⟨3 / 5, 0, -4 / 5⟩ : vec3) ⟨0, 0, 1⟩ = -4 / 5 from by
    unfold dot; norm_num]
  intro h
  have hz := congrArg vec3.z h
  unfold vec3.sub vec3.smul at hz
  norm_num at hz

/-- Claim C6 as amended: with `refraction_index = 1` the dielectric never
    bends a *refracted* ray — whenever the internal draw does not select
    reflection (no total internal reflection and the Schlick reflectance
    draw passes), the scattered direction is exactly the unit incoming
    direction; the attenuation is white.  (When the draw selects
    reflection — possible at any non-normal incidence since the Schlick
    term is positive there — the direction is the mirror reflection
    instead, so the claim's "every outcome of the random draw" fails.) -/
theorem C6_amended_dielectric_identity (r_in : ray) (rec : hit_record) (rand : ℝ)
    (hdir : r_in.direction ≠ vec3.zero)
    (hn : rec.normal.length_squared = 1)
    (hopp : 0 ≤ dot (vec3.neg (unit_vector r_in.direction)) rec.normal)
    (hrefr : ¬ dielectric.reflects 1 r_in rec rand) :
    (dielectric.scatter 1 r_in rec rand).2.direction = unit_vector r_in.direction ∧
    (dielectric.scatter 1 r_in rec rand).1 = ⟨1.0, 1.0, 1.0⟩ := by
  constructor
  · have hri : (if rec.front_face then (1.0 : ℝ) / 1 else 1) = 1 := by
      by_cases hf : rec.front_face
      · rw [if_pos hf]; norm_num
      · rw [if_neg hf]
    simp only [dielectric.scatter]
    rw [if_neg hrefr, hri]
    exact refract_eta_one (unit_vector r_in.direction) rec.normal
      (unit_vector_length_squared r_in.direction hdir) hn hopp
  · rfl

/-- Witness for the amended C6: normal incidence straight down `ray0`'s
    direction onto the normal `(0,0,1)` with draw `1/2`: the reflectance at
    normal incidence is `0`, the refract branch is taken, and the scattered
    direction equals the unit incoming direction. -/
theorem C6_amended_dielectric_identity_witness :
    (dielectric.scatter 1 ray0 ⟨⟨0, 0, 0⟩, ⟨0, 0, 1⟩, 0, True, 0⟩ (1 / 2)).2.direction =
      unit_vector ray0.direction := by
  have hlen : (⟨0, 0, -1⟩ : vec3).length = 1 := by
    unfold vec3.length vec3.length_squared
    rw [show (0 : ℝ) * 0 + 0 * 0 + -1 * -1 = 1 from by norm_num, Real.sqrt_one]
  have huv : unit_vector (⟨0, 0, -1⟩ : vec3) = ⟨0, 0, -1⟩ := by
    unfold unit_vector
    rw [if_neg (by rw [hlen]; norm_num), hlen]
    unfold vec3.divs vec3.smul
    ext <;> norm_num
  refine (C6_amended_dielectric_identity ray0 ⟨⟨0, 0, 0⟩, ⟨0, 0, 1⟩, 0, True, 0⟩ (1 / 2)
    ?_ ?_ ?_ ?_).1
  · intro h
    have hz := congrArg vec3.z h
    unfold ray0 vec3.zero at hz
    norm_num at hz
  · unfold vec3.length_squared
    norm_num
  · rw [show ray0.direction = ⟨0, 0, -1⟩ from rfl, huv]
    unfold dot vec3.neg
    norm_num
  · simp only [dielectric.reflects]
    rw [show ray0.direction = ⟨0, 0, -1⟩ from rfl, huv]
    rw [if_pos trivial]
    rw [show dot (vec3.neg ⟨0, 0, -1⟩) ⟨0, 0, 1⟩ = 1 from by
      unfold dot vec3.neg; norm_num]
    rw [show min (1 : ℝ) 1.0 = 1 from by
      rw [show (1.0 : ℝ) = 1 from by norm_num]
      exact min_eq_left (by norm_num)]
    rw [show (1 : ℝ) - 1 * 1 = 0 from by norm_num, Real.sqrt_zero]
    unfold dielectric.reflectance
    push_neg
    constructor <;> norm_num

/-! ### Claim C3: the scene aggregate query -/

/-- A parameter `t` is a valid intersection root of a sphere for a ray and
    an open parameter range `(lo, hi)`: the discriminant is non-negative,
    `t` is one of the two quadratic roots, and `t` lies strictly inside the
    range. -/
def validRootIn (s : sphere) (r : ray) (lo hi t : ℝ) : Prop :=
  0 ≤ s.disc r ∧ (t = s.root1 r ∨ t = s.root2 r) ∧ lo < t ∧ t < hi

theorem validRootIn_mono (s : sphere) (r : ray) (lo : ℝ) {hi hi' t : ℝ}
    (hle : hi ≤ hi') (h : validRootIn s r lo hi t) : validRootIn s r lo hi' t :=
  ⟨h.1, h.2.1, h.2.2.1, lt_of_lt_of_le h.2.2.2 hle⟩

theorem validRootIn_restrict (s : sphere) (r : ray) (lo : ℝ) {hi hi' t : ℝ}
    (h : validRootIn s r lo hi t) (hlt : t < hi') : validRootIn s r lo hi' t :=
  ⟨h.1, h.2.1, h.2.2.1, hlt⟩

theorem interval.surrounds_mk (lo hi t : ℝ) :
    (interval.mk lo hi).surrounds t ↔ lo < t ∧ t < hi := Iff.rfl

/-- A sphere whose hit query answers `none` has no valid root in the open
    range. -/
theorem sphere.hit_none_no_root (s : sphere) (r : ray) (lo hi : ℝ)
    (h : s.hit r ⟨lo, hi⟩ = none) : ∀ t, ¬ validRootIn s r lo hi t := by
  intro t ⟨hd, ht, hlo, hhi⟩
  rw [sphere.hit_eq_cases] at h
  rw [if_neg (not_lt.mpr hd)] at h
  by_cases h1 : (interval.mk lo hi).surrounds (s.root1 r)
  · rw [if_pos h1] at h
    exact Option.noConfusion h
  · rw [if_neg h1] at h
    by_cases h2 : (interval.mk lo hi).surrounds (s.root2 r)
    · rw [if_pos h2] at h
      exact Option.noConfusion h
    · rcases ht with ht | ht
      · exact h1 ((interval.surrounds_mk lo hi (s.root1 r)).mpr ⟨ht ▸ hlo, ht ▸ hhi⟩)
      · exact h2 ((interval.surrounds_mk lo hi (s.root2 r)).mpr ⟨ht ▸ hlo, ht ▸ hhi⟩)

/-- A sphere whose hit query answers `some rec` returns the record of its
    *minimal* valid root in the open range. -/
theorem sphere.hit_some_min (s : sphere) (r : ray) (lo hi : ℝ) (rec : hit_record)
    (h : s.hit r ⟨lo, hi⟩ = some rec) :
    rec = s.record r rec.t ∧ validRootIn s r lo hi rec.t ∧
    ∀ u, validRootIn s r lo hi u → rec.t ≤ u := by
  obtain ⟨hd, hcase⟩ := sphere.hit_inv s r ⟨lo, hi⟩ rec h
  rcases hcase with ⟨h1, he⟩ | ⟨h1, h2, he⟩
  · have ht : rec.t = s.root1 r := by rw [he, sphere.record_t]
    obtain ⟨ha, hb⟩ := (interval.surrounds_mk lo hi (s.root1 r)).mp h1
    refine ⟨by rw [ht, ← he], ⟨not_lt.mp hd, Or.inl ht, ht ▸ ha, ht ▸ hb⟩, ?_⟩
    intro u hu
    rcases hu.2.1 with hu1 | hu2
    · rw [ht, hu1]
    · rw [ht, hu2]
      exact sphere.root1_le_root2 s r
  · have ht : rec.t = s.root2 r := by rw [he, sphere.record_t]
    obtain ⟨ha, hb⟩ := (interval.surrounds_mk lo hi (s.root2 r)).mp h2
    refine ⟨by rw [ht, ← he], ⟨not_lt.mp hd, Or.inr ht, ht ▸ ha, ht ▸ hb⟩, ?_⟩
    intro u hu
    rcases hu.2.1 with hu1 | hu2
    · exact absurd ((interval.surrounds_mk lo hi (s.root1 r)).mpr
        ⟨hu1 ▸ hu.2.2.1, hu1 ▸ hu.2.2.2⟩) h1
    · rw [ht, hu2]

/-- The scan flag of `hittable_list::hit` is exactly "some member's query
    over the full range answers a hit". -/
theorem hitGo_flag (r : ray) (lo : ℝ) (objs : List sphere) :
    ∀ closest b rec, (hittable_list.hitGo r lo objs closest b rec).1
      = (b || objs.any fun s => (s.hit r ⟨lo, closest⟩).isSome) := by
  induction objs with
  | nil => intro closest b rec; simp [hittable_list.hitGo]
  | cons o rest ih =>
      intro closest b rec
      unfold hittable_list.hitGo
      cases h : o.hit r ⟨lo, closest⟩ with
      | some tr =>
          rw [ih tr.t true tr]
          simp [h]
      | none =>
          rw [ih closest b rec]
          simp [h]

/-- Invariant of the scan once a hit has been accepted: starting from an
    accepted record `rec` with shrunken bound `rec.t`, the final record is
    no farther than `rec`, is either `rec` itself or a member's record at a
    valid root below `rec.t`, and is a lower bound of every member root
    below `rec.t`. -/
theorem hitGo_true_spec (r : ray) (lo : ℝ) (objs : List sphere) :
    ∀ rec : hit_record,
      (hittable_list.hitGo r lo objs rec.t true rec).2.t ≤ rec.t ∧
      ((hittable_list.hitGo r lo objs rec.t true rec).2 = rec ∨
        ∃ s ∈ objs, (hittable_list.hitGo r lo objs rec.t true rec).2
            = s.record r (hittable_list.hitGo r lo objs rec.t true rec).2.t ∧
          validRootIn s r lo rec.t (hittable_list.hitGo r lo objs rec.t true rec).2.t) ∧
      ∀ s ∈ objs, ∀ u, validRootIn s r lo rec.t u →
        (hittable_list.hitGo r lo objs rec.t true rec).2.t ≤ u := by
  induction objs with
  | nil =>
      intro rec
      refine ⟨le_refl _, Or.inl rfl, ?_⟩
      intro s hs
      exact absurd hs (List.not_mem_nil s)
  | cons o rest ih =>
      intro rec
      unfold hittable_list.hitGo
      cases h : o.hit r ⟨lo, rec.t⟩ with
      | none =>
          have hno := sphere.hit_none_no_root o r lo rec.t h
          obtain ⟨ha, hb, hc⟩ := ih rec
          refine ⟨ha, ?_, ?_⟩
          · rcases hb with hb | ⟨s, hs, h1, h2⟩
            · exact Or.inl hb
            · exact Or.inr ⟨s, List.mem_cons_of_mem o hs, h1, h2⟩
          · intro s hs u hu
            rcases List.mem_cons.mp hs with hso | hsr
            · subst hso
              exact absurd hu (hno u)
            · exact hc s hsr u hu
      | some tr =>
          obtain ⟨htr_eq, htr_valid, htr_min⟩ := sphere.hit_some_min o r lo rec.t tr h
          obtain ⟨ha, hb, hc⟩ := ih tr
          have htlt : tr.t < rec.t := htr_valid.2.2.2
          refine ⟨le_trans ha htlt.le, ?_, ?_⟩
          · rcases hb with hb | ⟨s, hs, h1, h2⟩
            · refine Or.inr ⟨o, List.mem_cons_self o rest, ?_, ?_⟩
              · rw [hb]
                exact htr_eq
              · rw [hb]
                exact htr_valid
            · exact Or.inr ⟨s, List.mem_cons_of_mem o hs, h1,
                validRootIn_mono s r lo htlt.le h2⟩
          · intro s hs u hu
            rcases List.mem_cons.mp hs with hso | hsr
            · subst hso
              exact le_trans ha (htr_min u hu)
            · by_cases hcase : u < tr.t
              · exact hc s hsr u (validRootIn_restrict s r lo hu hcase)
              · exact le_trans ha (not_lt.mp hcase)

/-- Full characterisation of the scan from the initial state: when the flag
    comes back `true`, the final record is a member's record at a valid root
    in `(lo, hi)` and its `t` is a lower bound of every member's valid root
    in `(lo, hi)`. -/
theorem hitGo_false_spec (r : ray) (lo : ℝ) (objs : List sphere) :
    ∀ (hi : ℝ) (rec0 : hit_record),
      (hittable_list.hitGo r lo objs hi false rec0).1 = true →
      (∃ s ∈ objs, (hittable_list.hitGo r lo objs hi false rec0).2
          = s.record r (hittable_list.hitGo r lo objs hi false rec0).2.t ∧
        validRootIn s r lo hi (hittable_list.hitGo r lo objs hi false rec0).2.t) ∧
      ∀ s ∈ objs, ∀ u, validRootIn s r lo hi u →
        (hittable_list.hitGo r lo objs hi false rec0).2.t ≤ u := by
  induction objs with
  | nil =>
      intro hi rec0 hflag
      exact absurd hflag (by simp [hittable_list.hitGo])
  | cons o rest ih =>
      intro hi rec0 hflag
      unfold hittable_list.hitGo at hflag ⊢
      cases h : o.hit r ⟨lo, hi⟩ with
      | none =>
          rw [h] at hflag
          have hno := sphere.hit_none_no_root o r lo hi h
          obtain ⟨hb, hc⟩ := ih hi rec0 hflag
          refine ⟨?_, ?_⟩
          · obtain ⟨s, hs, h1, h2⟩ := hb
            exact ⟨s, List.mem_cons_of_mem o hs, h1, h2⟩
          · intro s hs u hu
            rcases List.mem_cons.mp hs with hso | hsr
            · subst hso
              exact absurd hu (hno u)
            · exact hc s hsr u hu
      | some tr =>
          obtain ⟨htr_eq, htr_valid, htr_min⟩ := sphere.hit_some_min o r lo hi tr h
          obtain ⟨ha, hb, hc⟩ := hitGo_true_spec r lo rest tr
          have hthi : tr.t < hi := htr_valid.2.2.2
          refine ⟨?_, ?_⟩
          · rcases hb with hb | ⟨s, hs, h1, h2⟩
            · refine ⟨o, List.mem_cons_self o rest, ?_, ?_⟩
              · rw [hb]
                exact htr_eq
              · rw [hb]
                exact htr_valid
            · exact ⟨s, List.mem_cons_of_mem o hs, h1,
                validRootIn_mono s r lo hthi.le h2⟩
          · intro s hs u hu
            rcases List.mem_cons.mp hs with hso | hsr
            · subst hso
              exact le_trans ha (htr_min u hu)
            · by_cases hcase : u < tr.t
              · exact hc s hsr u (validRootIn_restrict s r lo hu hcase)
              · exact le_trans ha (not_lt.mp hcase)

/-- Claim C3 as amended: for any ray with nonzero direction, any query
    interval and any finite list of member spheres, the scene aggregate
    query (a) reports a hit exactly when some member's own query over the
    full interval reports one, (b) on a hit returns some member's record at
    a valid root that is a lower bound of *every* member's valid roots in
    the interval (the globally nearest hit), and (c) is insensitive to
    member insertion order in its hit flag and in the returned parameter
    `t`.  (The full returned record is *not* order-independent when two
    members tie at the minimal `t` — see the counterexample — which is the
    only part of the original claim that fails.) -/
theorem C3_amended_scene_query (r : ray) (ray_t : interval) (objs : List sphere)
    (rec0 : hit_record) (_hdir : r.direction ≠ vec3.zero) :
    ((hittable_list.hit objs r ray_t rec0).1 = true ↔
      ∃ s ∈ objs, (s.hit r ray_t).isSome = true) ∧
    ((hittable_list.hit objs r ray_t rec0).1 = true →
      (∃ s ∈ objs, (hittable_list.hit objs r ray_t rec0).2
          = s.record r (hittable_list.hit objs r ray_t rec0).2.t ∧
        validRootIn s r ray_t.min ray_t.max (hittable_list.hit objs r ray_t rec0).2.t) ∧
      ∀ s ∈ objs, ∀ u, validRootIn s r ray_t.min ray_t.max u →
        (hittable_list.hit objs r ray_t rec0).2.t ≤ u) ∧
    (∀ objs' : List sphere, objs'.Perm objs →
      (hittable_list.hit objs' r ray_t rec0).1 = (hittable_list.hit objs r ray_t rec0).1 ∧
      ((hittable_list.hit objs r ray_t rec0).1 = true →
        (hittable_list.hit objs' r ray_t rec0).2.t =
          (hittable_list.hit objs r ray_t rec0).2.t)) := by
  have hflag : ∀ l : List sphere, (hittable_list.hit l r ray_t rec0).1
      = l.any (fun s => (s.hit r ray_t).isSome) := by
    intro l
    unfold hittable_list.hit
    rw [hitGo_flag r ray_t.min l ray_t.max false rec0, Bool.false_or]
  refine ⟨?_, ?_, ?_⟩
  · rw [hflag objs]
    exact List.any_eq_true
  · intro htrue
    exact hitGo_false_spec r ray_t.min objs ray_t.max rec0 htrue
  · intro objs' hperm
    have hf : (hittable_list.hit objs' r ray_t rec0).1
        = (hittable_list.hit objs r ray_t rec0).1 := by
      rw [hflag objs', hflag objs]
      by_cases hcase : objs.any (fun s => (s.hit r ray_t).isSome) = true
      · rw [hcase]
        rw [List.any_eq_true] at hcase ⊢
        obtain ⟨s, hs, hp⟩ := hcase
        exact ⟨s, hperm.mem_iff.mpr hs, hp⟩
      · have hcase' : ¬ objs'.any (fun s => (s.hit r ray_t).isSome) = true := by
          intro hx
          rw [List.any_eq_true] at hx
          obtain ⟨s, hs, hp⟩ := hx
          exact hcase (List.any_eq_true.mpr ⟨s, hperm.mem_iff.mp hs, hp⟩)
        rw [Bool.not_eq_true] at hcase hcase'
        rw [hcase, hcase']
    refine ⟨hf, ?_⟩
    intro htrue
    have htrue' : (hittable_list.hit objs' r ray_t rec0).1 = true := by
      rw [hf]; exact htrue
    obtain ⟨⟨s, hs, _, hvalid⟩, hmin⟩ :=
      hitGo_false_spec r ray_t.min objs ray_t.max rec0 htrue
    obtain ⟨⟨s', hs', _, hvalid'⟩, hmin'⟩ :=
      hitGo_false_spec r ray_t.min objs' ray_t.max rec0 htrue'
    exact le_antisymm (hmin' s (hperm.mem_iff.mpr hs) _ hvalid)
      (hmin s' (hperm.mem_iff.mp hs') _ hvalid')

/-- Witness for the amended C3 at a concrete one-sphere scene. -/
theorem C3_amended_scene_query_witness :
    (hittable_list.hit [sphere.make ⟨0, 0, -2⟩ 1 0] ray0 ⟨0, 10⟩ default).1 = true ↔
      ∃ s ∈ [sphere.make ⟨0, 0, -2⟩ 1 0],
        (s.hit ray0 (⟨0, 10⟩ : interval)).isSome = true :=
  (C3_amended_scene_query ray0 ⟨0, 10⟩ [sphere.make ⟨0, 0, -2⟩ 1 0] default (by
    intro h
    have hz := congrArg vec3.z h
    unfold ray0 vec3.zero at hz
    norm_num at hz)).1

/-! #### Order dependence of the full record on exact ties -/

theorem hitGo_nil_eval (r : ray) (lo closest : ℝ) (b : Bool) (rec : hit_record) :
    hittable_list.hitGo r lo [] closest b rec = (b, rec) := rfl

theorem hitGo_cons_some (r : ray) (lo : ℝ) (o : sphere) (rest : List sphere)
    (closest : ℝ) (b : Bool) (rec tr : hit_record)
    (h : o.hit r ⟨lo, closest⟩ = some tr) :
    hittable_list.hitGo r lo (o :: rest) closest b rec
      = hittable_list.hitGo r lo rest tr.t true tr := by
  conv_lhs => unfold hittable_list.hitGo
  rw [h]

theorem hitGo_cons_none (r : ray) (lo : ℝ) (o : sphere) (rest : List sphere)
    (closest : ℝ) (b : Bool) (rec : hit_record)
    (h : o.hit r ⟨lo, closest⟩ = none) :
    hittable_list.hitGo r lo (o :: rest) closest b rec
      = hittable_list.hitGo r lo rest closest b rec := by
  conv_lhs => unfold hittable_list.hitGo
  rw [h]

/-- First sphere of the tie: centre `(0,0,-2)`, radius 1, material id 0;
    `ray0` meets it first at `t = 1`. -/
def sphereA : sphere := sphere.make ⟨0, 0, -2⟩ 1 0

/-- Second sphere of the tie: centre `(0,0,-3)`, radius 2, material id 1;
    `ray0` also meets it first at `t = 1` (same point, different
    material). -/
def sphereB : sphere := sphere.make ⟨0, 0, -3⟩ 2 1

theorem sphereA_disc : sphereA.disc ray0 = 1 := by
  unfold sphereA sphere.disc sphere.qa sphere.qh sphere.qc sphere.make ray0 dot
    vec3.sub vec3.length_squared
  norm_num [max_eq_right]

theorem sphereA_root1 : sphereA.root1 ray0 = 1 := by
  unfold sphere.root1
  rw [sphereA_disc, Real.sqrt_one]
  unfold sphereA sphere.qh sphere.qa sphere.make ray0 dot vec3.sub vec3.length_squared
  norm_num

theorem sphereB_disc : sphereB.disc ray0 = 4 := by
  unfold sphereB sphere.disc sphere.qa sphere.qh sphere.qc sphere.make ray0 dot
    vec3.sub vec3.length_squared
  norm_num [max_eq_right]

theorem sphereB_sqrt_disc : Real.sqrt (sphereB.disc ray0) = 2 := by
  rw [sphereB_disc, show (4 : ℝ) = 2 ^ 2 from by norm_num,
    Real.sqrt_sq (by norm_num : (0 : ℝ) ≤ 2)]

theorem sphereB_root1 : sphereB.root1 ray0 = 1 := by
  unfold sphere.root1
  rw [sphereB_sqrt_disc]
  unfold sphereB sphere.qh sphere.qa sphere.make ray0 dot vec3.sub vec3.length_squared
  norm_num

theorem sphereB_root2 : sphereB.root2 ray0 = 5 := by
  unfold sphere.root2
  rw [sphereB_sqrt_disc]
  unfold sphereB sphere.qh sphere.qa sphere.make ray0 dot vec3.sub vec3.length_squared
  norm_num

theorem sphereA_root2 : sphereA.root2 ray0 = 3 := by
  unfold sphere.root2
  rw [sphereA_disc, Real.sqrt_one]
  unfold sphereA sphere.qh sphere.qa sphere.make ray0 dot vec3.sub vec3.length_squared
  norm_num

theorem sphereA_hit10 : sphereA.hit ray0 ⟨0, 10⟩ = some (sphereA.record ray0 1) := by
  have h := sphere.hit_some1 sphereA ray0 ⟨0, 10⟩
    (by rw [sphereA_disc]; norm_num)
    (by rw [sphereA_root1]; exact (interval.surrounds_mk 0 10 1).mpr (by norm_num))
  rw [sphereA_root1] at h
  exact h

theorem sphereB_hit10 : sphereB.hit ray0 ⟨0, 10⟩ = some (sphereB.record ray0 1) := by
  have h := sphere.hit_some1 sphereB ray0 ⟨0, 10⟩
    (by rw [sphereB_disc]; norm_num)
    (by rw [sphereB_root1]; exact (interval.surrounds_mk 0 10 1).mpr (by norm_num))
  rw [sphereB_root1] at h
  exact h

theorem sphereB_hit_after_A :
    sphereB.hit ray0 ⟨0, (sphereA.record ray0 1).t⟩ = none := by
  rw [sphere.record_t]
  refine sphere.hit_none_of_miss sphereB ray0 ⟨0, 1⟩ ?_ ?_
  · rw [sphereB_root1]
    intro hsur
    exact absurd ((interval.surrounds_mk 0 1 1).mp hsur).2 (by norm_num)
  · rw [sphereB_root2]
    intro hsur
    exact absurd ((interval.surrounds_mk 0 1 5).mp hsur).2 (by norm_num)

theorem sphereA_hit_after_B :
    sphereA.hit ray0 ⟨0, (sphereB.record ray0 1).t⟩ = none := by
  rw [sphere.record_t]
  refine sphere.hit_none_of_miss sphereA ray0 ⟨0, 1⟩ ?_ ?_
  · rw [sphereA_root1]
    intro hsur
    exact absurd ((interval.surrounds_mk 0 1 1).mp hsur).2 (by norm_num)
  · rw [sphereA_root2]
    intro hsur
    exact absurd ((interval.surrounds_mk 0 1 3).mp hsur).2 (by norm_num)

theorem hit_AB_eval : hittable_list.hit [sphereA, sphereB] ray0 ⟨0, 10⟩ default
    = (true, sphereA.record ray0 1) := by
  show hittable_list.hitGo ray0 (0 : ℝ) [sphereA, sphereB] (10 : ℝ) false default
    = (true, sphereA.record ray0 1)
  rw [hitGo_cons_some ray0 0 sphereA [sphereB] 10 false default _ sphereA_hit10]
  rw [hitGo_cons_none ray0 0 sphereB [] _ true _ sphereB_hit_after_A]
  rw [hitGo_nil_eval]

theorem hit_BA_eval : hittable_list.hit [sphereB, sphereA] ray0 ⟨0, 10⟩ default
    = (true, sphereB.record ray0 1) := by
  show hittable_list.hitGo ray0 (0 : ℝ) [sphereB, sphereA] (10 : ℝ) false default
    = (true, sphereB.record ray0 1)
  rw [hitGo_cons_some ray0 0 sphereB [sphereA] 10 false default _ sphereB_hit10]
  rw [hitGo_cons_none ray0 0 sphereA [] _ true _ sphereA_hit_after_B]
  rw [hitGo_nil_eval]

/-- Counterexample to claim C3: the two insertion orders of the tied spheres
    `sphereA`, `sphereB` (both first hit at `t = 1` on `ray0`, different
    materials) are permutations of each other, yet the scene query returns
    the record of the first-inserted sphere — material id 0 in one order and
    1 in the other — so the returned result is *not* identical for every
    permutation of the members. -/
theorem C3_counterexample :
    List.Perm [sphereA, sphereB] [sphereB, sphereA] ∧
    (hittable_list.hit [sphereA, sphereB] ray0 ⟨0, 10⟩ default).2.mat = 0 ∧
    (hittable_list.hit [sphereB, sphereA] ray0 ⟨0, 10⟩ default).2.mat = 1 ∧
    (hittable_list.hit [sphereA, sphereB] ray0 ⟨0, 10⟩ default).2 ≠
      (hittable_list.hit [sphereB, sphereA] ray0 ⟨0, 10⟩ default).2 := by
  have hmatA : (hittable_list.hit [sphereA, sphereB] ray0 ⟨0, 10⟩ default).2.mat = 0 := by
    rw [hit_AB_eval]
    rfl
  have hmatB : (hittable_list.hit [sphereB, sphereA] ray0 ⟨0, 10⟩ default).2.mat = 1 := by
    rw [hit_BA_eval]
    rfl
  refine ⟨List.Perm.swap sphereB sphereA [], hmatA, hmatB, ?_⟩
  intro h
  have hm := congrArg hit_record.mat h
  rw [hmatA, hmatB] at hm
  exact absurd hm (by norm_num)

end RayCraft
